import Mathlib

/-!
Verification of the bare-metal runtime-support layer in src/src/support.c
(Arduino Due / ATSAM3X8E, 32-bit ARM Cortex-M3).

The C code is shallowly embedded: `uintptr_t` / `size_t` values are naturals
reduced mod `W = 2^32` exactly where the 32-bit machine arithmetic wraps,
byte memory is a map from addresses to byte values, and the global mutable
state (`g_heap`, `g_rng`) is passed explicitly.
-/

namespace Support

/-- Width of the 32-bit address space: `uintptr_t` and `size_t` are 32 bits
on the ATSAM3X8E target. -/
def W : Nat := 2 ^ 32

/-! ### Bump allocator (posix_memalign) -/

/-- Embedding of `heap_init_once` from src/src/support.c: the cursor value 0
means "not yet initialised"; the first use replaces it with the
linker-provided heap base `&_end` (`end_addr`). -/
def heap_init_once (end_addr g_heap : Nat) : Nat :=
  if g_heap = 0 then end_addr else g_heap

/-- Embedding of `align_up` from src/src/support.c:
`(p + (a - 1)) & ~(a - 1)` on 32-bit `uintptr_t` values. The C bitwise
complement `~(a-1)` on 32 bits is `(W - 1) XOR ((a - 1) mod W)`; the only
caller passes `4 ≤ a < W`, for which Nat subtraction agrees with the
machine's `a - 1`. -/
def align_up (p a : Nat) : Nat :=
  Nat.land ((p + (a - 1) % W) % W) (Nat.xor (W - 1) ((a - 1) % W))

/-- Embedding of the coercion `if (alignment < sizeof(void*)) alignment = sizeof(void*);`
in `posix_memalign` (`sizeof(void*) = 4` on this target). -/
def coerced_alignment (alignment : Nat) : Nat :=
  if alignment < 4 then 4 else alignment

/-- Result of one `posix_memalign` call: the returned errno-style status,
the value written through `memptr` (`none` when nothing is written), and the
value of the heap cursor `g_heap` after the call. -/
structure AllocResult where
  status : Nat
  written : Option Nat
  g_heap : Nat
deriving DecidableEq

/-- Embedding of `posix_memalign` from src/src/support.c. `end_addr` and
`estack` are the linker symbols `&_end` / `&_estack`; `memptr_null` says
whether the output-slot pointer is null; `g0` is the heap cursor before the
call. All address arithmetic wraps mod `W` exactly as the C `uintptr_t`
arithmetic does. -/
def posix_memalign (end_addr estack : Nat) (memptr_null : Bool)
    (alignment size g0 : Nat) : AllocResult :=
  let g := heap_init_once end_addr g0
  if memptr_null then ⟨22, none, g⟩
  else
    let al := coerced_alignment alignment
    if Nat.land al (al - 1) ≠ 0 then ⟨22, none, g⟩
    else
      let p := align_up g al
      let newp := (p + size) % W
      if estack ≤ newp then ⟨12, some 0, g⟩
      else ⟨0, some p, newp⟩

/-- Specification-side description of step 3 of the spec's allocator
algorithm ("Round the current cursor up to the next multiple of
`alignment`"), in plain arithmetic, to be compared with the code's bitwise
`align_up`. -/
def roundUpSpec (c a : Nat) : Nat :=
  ((c + (a - 1)) / a) * a

/-! ### Arithmetic facts about the allocator's bit tricks -/

theorem roundUpSpec_facts (c a : Nat) (ha : 0 < a) :
    c ≤ roundUpSpec c a ∧ roundUpSpec c a < c + a ∧ roundUpSpec c a % a = 0 := by
  have hmod : (c + (a - 1)) % a < a := Nat.mod_lt _ ha
  have hdm : a * ((c + (a - 1)) / a) + (c + (a - 1)) % a = c + (a - 1) :=
    Nat.div_add_mod _ _
  have hru : roundUpSpec c a = a * ((c + (a - 1)) / a) := by
    unfold roundUpSpec; exact Nat.mul_comm _ _
  refine ⟨by omega, by omega, ?_⟩
  rw [hru]
  simp [Nat.mul_mod_right]

theorem land_mask_high (x k : Nat) (hx : x < 2 ^ 32) (hk : k ≤ 32) :
    Nat.land x (Nat.xor (2 ^ 32 - 1) (2 ^ k - 1)) = 2 ^ k * (x / 2 ^ k) := by
  apply Nat.eq_of_testBit_eq
  intro i
  have hdiv : x / 2 ^ k = x >>> k := (Nat.shiftRight_eq_div_pow x k).symm
  rw [hdiv]
  show (x &&& ((2 ^ 32 - 1) ^^^ (2 ^ k - 1))).testBit i = (2 ^ k * (x >>> k)).testBit i
  rw [Nat.testBit_and, Nat.testBit_xor, Nat.testBit_two_pow_sub_one,
    Nat.testBit_two_pow_sub_one, Nat.testBit_mul_pow_two]
  rcases Nat.lt_or_ge i k with hik | hik
  · have h32 : i < 32 := Nat.lt_of_lt_of_le hik hk
    simp [hik, h32, Nat.not_le_of_lt hik]
  · rcases Nat.lt_or_ge i 32 with h32 | h32
    · have : ¬ i < k := Nat.not_lt_of_le hik
      simp [this, h32, hik, Nat.testBit_shiftRight, Nat.add_sub_cancel' hik]
    · have hxi : x.testBit i = false := by
        apply Nat.testBit_lt_two_pow
        exact Nat.lt_of_lt_of_le hx (Nat.pow_le_pow_right (by omega) h32)
      have h1 : ¬ i < 32 := Nat.not_lt_of_le h32
      have h2 : ¬ i < k := by omega
      simp [h1, h2, hxi, hik, Nat.testBit_shiftRight, Nat.add_sub_cancel' hik]

theorem pow_two_land_pred (k : Nat) : Nat.land (2 ^ k) (2 ^ k - 1) = 0 := by
  show 2 ^ k &&& (2 ^ k - 1) = 0
  rw [Nat.and_pow_two_sub_one_eq_mod]
  exact Nat.mod_self _

theorem pow_two_of_land_pred_eq_zero (a : Nat) (ha : 0 < a)
    (h : Nat.land a (a - 1) = 0) : ∃ k, a = 2 ^ k := by
  induction a using Nat.strong_induction_on with
  | _ a ih =>
    rcases Nat.lt_or_ge a 2 with h2 | h2
    · have : a = 1 := by omega
      exact ⟨0, by omega⟩
    · have hhalf : Nat.land a (a - 1) / 2 = Nat.land (a / 2) ((a - 1) / 2) :=
        Nat.and_div_two
      have h0 : Nat.land (a / 2) ((a - 1) / 2) = 0 := by
        rw [← hhalf, h]
      rcases Nat.even_or_odd a with he | ho
      · obtain ⟨b, hb⟩ := he
        have hb2 : a = 2 * b := by omega
        have hd1 : a / 2 = b := by omega
        have hd2 : (a - 1) / 2 = b - 1 := by omega
        rw [hd1, hd2] at h0
        obtain ⟨k, hk⟩ := ih b (by omega) (by omega) h0
        exact ⟨k + 1, by rw [hb2, hk, Nat.pow_succ, Nat.mul_comm]⟩
      · obtain ⟨c, hc⟩ := ho
        have hd1 : a / 2 = c := by omega
        have hd2 : (a - 1) / 2 = c := by omega
        rw [hd1, hd2] at h0
        have hself : Nat.land c c = c := Nat.and_self c
        omega

theorem align_up_eq_roundUpSpec (g k : Nat) (hk : k ≤ 32)
    (hb : g + (2 ^ k - 1) < W) :
    align_up g (2 ^ k) = roundUpSpec g (2 ^ k) := by
  have hpow : 2 ^ k - 1 < W := by
    have : (2 : Nat) ^ k ≤ 2 ^ 32 := Nat.pow_le_pow_right (by omega) hk
    have hW : W = 2 ^ 32 := rfl
    omega
  unfold align_up
  rw [Nat.mod_eq_of_lt hpow, Nat.mod_eq_of_lt hb]
  have hW : W = 2 ^ 32 := rfl
  rw [hW]
  rw [land_mask_high (g + (2 ^ k - 1)) k (hW ▸ hb) hk]
  unfold roundUpSpec
  exact Nat.mul_comm _ _

theorem coerced_alignment_ge_four (alignment : Nat) :
    4 ≤ coerced_alignment alignment := by
  unfold coerced_alignment
  split <;> omega

theorem posix_memalign_success_core (end_addr estack g0 alignment size k : Nat)
    (hk : coerced_alignment alignment = 2 ^ k)
    (haW : alignment < W)
    (hstk : estack ≤ W)
    (hfit : roundUpSpec (heap_init_once end_addr g0) (coerced_alignment alignment) + size
      < estack) :
    posix_memalign end_addr estack false alignment size g0 =
      ⟨0, some (roundUpSpec (heap_init_once end_addr g0) (coerced_alignment alignment)),
        roundUpSpec (heap_init_once end_addr g0) (coerced_alignment alignment) + size⟩ := by
  have hW : W = 2 ^ 32 := rfl
  have h4 : 4 ≤ coerced_alignment alignment := coerced_alignment_ge_four alignment
  have halW : coerced_alignment alignment ≤ 2 ^ 32 := by
    unfold coerced_alignment
    split
    · omega
    · omega
  have hk32 : k ≤ 32 := by
    rw [hk] at halW
    exact (Nat.pow_le_pow_iff_right (by omega)).mp halW
  have hpos : 0 < coerced_alignment alignment := by omega
  obtain ⟨hge, hlt, hmod0⟩ :=
    roundUpSpec_facts (heap_init_once end_addr g0) (coerced_alignment alignment) hpos
  have hdvdW : coerced_alignment alignment ∣ W := by
    rw [hk, hW]
    exact pow_dvd_pow 2 hk32
  have hrdvd : coerced_alignment alignment ∣
      roundUpSpec (heap_init_once end_addr g0) (coerced_alignment alignment) :=
    Nat.dvd_of_mod_eq_zero hmod0
  have hrW : roundUpSpec (heap_init_once end_addr g0) (coerced_alignment alignment) < W := by
    omega
  have hrle : roundUpSpec (heap_init_once end_addr g0) (coerced_alignment alignment) ≤
      W - coerced_alignment alignment := by
    have hsubdvd : coerced_alignment alignment ∣
        (W - roundUpSpec (heap_init_once end_addr g0) (coerced_alignment alignment)) :=
      Nat.dvd_sub' hdvdW hrdvd
    have hposd : 0 < W - roundUpSpec (heap_init_once end_addr g0)
        (coerced_alignment alignment) := by omega
    have := Nat.le_of_dvd hposd hsubdvd
    omega
  have hb : heap_init_once end_addr g0 + (coerced_alignment alignment - 1) < W := by
    omega
  have hland : Nat.land (coerced_alignment alignment) (coerced_alignment alignment - 1)
      = 0 := by
    rw [hk]
    exact pow_two_land_pred k
  have haeq : align_up (heap_init_once end_addr g0) (coerced_alignment alignment) =
      roundUpSpec (heap_init_once end_addr g0) (coerced_alignment alignment) := by
    rw [hk]
    rw [hk] at hb
    exact align_up_eq_roundUpSpec _ k hk32 hb
  unfold posix_memalign
  rw [if_neg (by simp)]
  simp only [hland, ne_eq, not_true_eq_false, if_false, ite_false]
  rw [haeq]
  rw [Nat.mod_eq_of_lt (by omega)]
  rw [if_neg (by omega)]

/-- Claim C1: with a non-null output slot, a power-of-two (coerced) alignment
and a size such that rounding the current cursor up to the next multiple of
the alignment and adding the size stays strictly below the stack top,
`posix_memalign` returns 0, stores the rounded cursor — the least address
that is `≥` the cursor, less than cursor + alignment, and `≡ 0` modulo the
(coerced) alignment — into the slot, and advances the cursor to rounded
cursor + size; in particular this covers `size = 0`. -/
theorem posix_memalign_success_spec (end_addr estack g0 alignment size k : Nat)
    (hk : coerced_alignment alignment = 2 ^ k)
    (haW : alignment < W)
    (hstk : estack ≤ W)
    (hfit : roundUpSpec (heap_init_once end_addr g0) (coerced_alignment alignment) + size
      < estack) :
    posix_memalign end_addr estack false alignment size g0 =
      ⟨0, some (roundUpSpec (heap_init_once end_addr g0) (coerced_alignment alignment)),
        roundUpSpec (heap_init_once end_addr g0) (coerced_alignment alignment) + size⟩
    ∧ roundUpSpec (heap_init_once end_addr g0) (coerced_alignment alignment)
        % coerced_alignment alignment = 0
    ∧ heap_init_once end_addr g0 ≤
        roundUpSpec (heap_init_once end_addr g0) (coerced_alignment alignment)
    ∧ roundUpSpec (heap_init_once end_addr g0) (coerced_alignment alignment) <
        heap_init_once end_addr g0 + coerced_alignment alignment := by
  have h4 : 4 ≤ coerced_alignment alignment := coerced_alignment_ge_four alignment
  obtain ⟨hge, hlt, hmod0⟩ :=
    roundUpSpec_facts (heap_init_once end_addr g0) (coerced_alignment alignment) (by omega)
  exact ⟨posix_memalign_success_core end_addr estack g0 alignment size k hk haW hstk hfit,
    hmod0, hge, hlt⟩

/-- Witness for C1: a concrete successful allocation (alignment 8, size 5,
freshly initialised cursor), and a zero-size one via the same theorem. -/
theorem posix_memalign_success_spec_witness :
    posix_memalign 0x20070000 0x20088000 false 8 5 0 =
      ⟨0, some 0x20070000, 0x20070005⟩
    ∧ posix_memalign 0x20070000 0x20088000 false 8 0 0x20070005 =
      ⟨0, some 0x20070008, 0x20070008⟩ := by
  constructor
  · have h := posix_memalign_success_spec 0x20070000 0x20088000 0 8 5 3
      (by decide) (by decide) (by decide) (by decide)
    exact h.1.trans (by decide)
  · have h := posix_memalign_success_spec 0x20070000 0x20088000 0x20070005 8 0 3
      (by decide) (by decide) (by decide) (by decide)
    exact h.1.trans (by decide)

/-- Claim C2 (code bug): the candidate end is computed as `p + size` in
wrapping 32-bit arithmetic, so a request whose true candidate end
(rounded cursor plus size) is far beyond the stack top can wrap below it:
here rounded cursor + size `≥` stack top, yet the call returns 0 (not 12),
stores a non-null pointer, and moves the cursor — contradicting the claim
that every such request fails with 12, a null slot, and an unchanged
cursor. -/
theorem posix_memalign_overflow_ignores_stack_top :
    0x20088000 ≤ roundUpSpec 0x20070000 4 + 0xFFFFFFF8
    ∧ posix_memalign 0x20070000 0x20088000 false 4 0xFFFFFFF8 0x20070000 =
        ⟨0, some 0x20070000, 0x2006FFF8⟩ := by
  constructor
  · decide
  · decide

/-- Claim C4 (code bug): because of the same wrapping addition, a successful
call can move the heap cursor backward: starting from cursor 0x20080000 a
huge request succeeds (status 0) and leaves the cursor at 0x2007FFF0,
strictly below its previous value — contradicting monotonicity. -/
theorem posix_memalign_cursor_decreases :
    (posix_memalign 0x20070000 0x20088000 false 8 0xFFFFFFF0 0x20080000).status = 0
    ∧ (posix_memalign 0x20070000 0x20088000 false 8 0xFFFFFFF0 0x20080000).g_heap
        < 0x20080000 := by
  constructor
  · decide
  · decide

/-- Counterexample to claim C3: alignment 3 is first coerced up to
`sizeof(void*) = 4`, which passes the power-of-two test, so the call
returns 0 (success), not 22. -/
theorem posix_memalign_alignment_three_succeeds :
    (posix_memalign 0x20070000 0x20088000 false 3 16 0x20070000).status = 0
    ∧ (posix_memalign 0x20070000 0x20088000 false 3 16 0x20070000).status ≠ 22 := by
  constructor
  · decide
  · decide

/-- Amended claim C3: a non-power-of-two alignment that is at least
`sizeof(void*) = 4` (so that the coercion leaves it alone) makes
`posix_memalign` return 22 with nothing written and the cursor unchanged
(for an alignment below 4, such as 3, the coercion to 4 applies and the
call does not fail this way). -/
theorem posix_memalign_nonpow2_invalid (end_addr estack g0 alignment size : Nat)
    (h4 : 4 ≤ alignment) (hnp : ¬ ∃ k, alignment = 2 ^ k) :
    posix_memalign end_addr estack false alignment size g0 =
      ⟨22, none, heap_init_once end_addr g0⟩
    ∧ (g0 ≠ 0 →
        (posix_memalign end_addr estack false alignment size g0).g_heap = g0) := by
  have hal : coerced_alignment alignment = alignment := by
    unfold coerced_alignment
    rw [if_neg (by omega)]
  have hland : Nat.land alignment (alignment - 1) ≠ 0 := by
    intro h0
    exact hnp (pow_two_of_land_pred_eq_zero alignment (by omega) h0)
  have hmain : posix_memalign end_addr estack false alignment size g0 =
      ⟨22, none, heap_init_once end_addr g0⟩ := by
    unfold posix_memalign
    rw [if_neg (by simp)]
    rw [hal]
    rw [if_pos hland]
  refine ⟨hmain, fun hg0 => ?_⟩
  rw [hmain]
  unfold heap_init_once
  rw [if_neg hg0]

/-- Witness for the amended C3: alignment 12 (not a power of two, `≥` 4)
is rejected with status 22 and the initialised cursor 0x20070000 stays put. -/
theorem posix_memalign_nonpow2_invalid_witness :
    posix_memalign 0x20070000 0x20088000 false 12 64 0x20070000 =
      ⟨22, none, 0x20070000⟩
    ∧ (posix_memalign 0x20070000 0x20088000 false 12 64 0x20070000).g_heap
        = 0x20070000 := by
  have hnp : ¬ ∃ k, (12 : Nat) = 2 ^ k := by
    rintro ⟨k, hk⟩
    have hk4 : k < 4 := by
      by_contra hge
      have h16 : (2 : Nat) ^ 4 ≤ 2 ^ k := Nat.pow_le_pow_right (by omega) (by omega)
      omega
    interval_cases k <;> omega
  have h := posix_memalign_nonpow2_invalid 0x20070000 0x20088000 0x20070000 12 64
    (by omega) hnp
  exact ⟨h.1.trans (by decide), h.2 (by decide)⟩

/-- Claim C10: a null output-slot pointer makes `posix_memalign` return 22
for every alignment and size, with nothing written through the slot and the
heap cursor not advanced (an already-initialised cursor is returned
unchanged; an uninitialised one only undergoes the lazy base
initialisation). -/
theorem posix_memalign_null_slot (end_addr estack alignment size g0 : Nat) :
    posix_memalign end_addr estack true alignment size g0 =
      ⟨22, none, heap_init_once end_addr g0⟩
    ∧ (g0 ≠ 0 →
        (posix_memalign end_addr estack true alignment size g0).g_heap = g0) := by
  have hmain : posix_memalign end_addr estack true alignment size g0 =
      ⟨22, none, heap_init_once end_addr g0⟩ := rfl
  refine ⟨hmain, fun hg0 => ?_⟩
  rw [hmain]
  unfold heap_init_once
  rw [if_neg hg0]

/-- Witness for C10: a concrete null-slot call with an invalid alignment and
a huge size still returns 22 and leaves the initialised cursor alone. -/
theorem posix_memalign_null_slot_witness :
    posix_memalign 0x20070000 0x20088000 true 3 0xFFFFFFFF 0x20070010 =
      ⟨22, none, 0x20070010⟩ := by
  have h := posix_memalign_null_slot 0x20070000 0x20088000 3 0xFFFFFFFF 0x20070010
  exact h.1.trans (by decide)

/-! ### Byte-memory model and the libc-style intrinsics -/

/-- Byte memory: a map from byte addresses to byte values. -/
def Mem : Type := Nat → Nat

/-- Store one byte at one address. -/
def store (m : Mem) (p v : Nat) : Mem :=
  fun a => if a = p then v else m a

/-- Embedding of the loop of `memset` from src/src/support.c:
`while (n--) *p++ = v;`. -/
def memsetRun (m : Mem) (p v : Nat) : Nat → Mem
  | 0 => m
  | n + 1 => memsetRun (store m p v) (p + 1) v n

/-- Embedding of `memset` from src/src/support.c; the C cast
`(uint8_t)c` keeps the low 8 bits of the value argument, i.e. `c % 256`.
Returns the updated memory and the returned pointer (`dest`). -/
def memset (m : Mem) (dest c n : Nat) : Mem × Nat :=
  (memsetRun m dest (c % 256) n, dest)

/-- Embedding of the loop of `memcpy` from src/src/support.c:
`while (n--) *d++ = *s++;` (also the forward branch of `memmove`, whose
loop is identical). -/
def memcpyRun (m : Mem) (d s : Nat) : Nat → Mem
  | 0 => m
  | n + 1 => memcpyRun (store m d (m s)) (d + 1) (s + 1) n

/-- Embedding of `memcpy` from src/src/support.c. -/
def memcpy (m : Mem) (dest src n : Nat) : Mem × Nat :=
  (memcpyRun m dest src n, dest)

/-- Embedding of the backward branch of `memmove` from src/src/support.c:
after `d += n; s += n;`, the loop `while (n--) *--d = *--s;` copies the
bytes from the highest index down. -/
def memmoveBackRun (m : Mem) (d s : Nat) : Nat → Mem
  | 0 => m
  | n + 1 => memmoveBackRun (store m (d + n) (m (s + n))) d s n

/-- Embedding of `memmove` from src/src/support.c. -/
def memmove (m : Mem) (dest src n : Nat) : Mem × Nat :=
  if dest = src ∨ n = 0 then (m, dest)
  else if dest < src then (memcpyRun m dest src n, dest)
  else (memmoveBackRun m dest src n, dest)

/-! ### ARM EABI alternate entry points (src/src/support.c) -/

/-- Embedding of `__aeabi_memset(dest, n, c)`: delegates to
`memset(dest, c, n)` (note the swapped argument order). -/
def __aeabi_memset (m : Mem) (dest n c : Nat) : Mem :=
  (memset m dest c n).1

/-- Embedding of `__aeabi_memset4`: delegates to `memset(dest, c, n)`. -/
def __aeabi_memset4 (m : Mem) (dest n c : Nat) : Mem :=
  (memset m dest c n).1

/-- Embedding of `__aeabi_memset8`: delegates to `memset(dest, c, n)`. -/
def __aeabi_memset8 (m : Mem) (dest n c : Nat) : Mem :=
  (memset m dest c n).1

/-- Embedding of `__aeabi_memclr`: delegates to `memset(dest, 0, n)`. -/
def __aeabi_memclr (m : Mem) (dest n : Nat) : Mem :=
  (memset m dest 0 n).1

/-- Embedding of `__aeabi_memclr4`: delegates to `memset(dest, 0, n)`. -/
def __aeabi_memclr4 (m : Mem) (dest n : Nat) : Mem :=
  (memset m dest 0 n).1

/-- Embedding of `__aeabi_memclr8`: delegates to `memset(dest, 0, n)`. -/
def __aeabi_memclr8 (m : Mem) (dest n : Nat) : Mem :=
  (memset m dest 0 n).1

/-- Embedding of `__aeabi_memcpy`: delegates to `memcpy(dest, src, n)`. -/
def __aeabi_memcpy (m : Mem) (dest src n : Nat) : Mem :=
  (memcpy m dest src n).1

/-- Embedding of `__aeabi_memcpy4`: delegates to `memcpy(dest, src, n)`. -/
def __aeabi_memcpy4 (m : Mem) (dest src n : Nat) : Mem :=
  (memcpy m dest src n).1

/-- Embedding of `__aeabi_memcpy8`: delegates to `memcpy(dest, src, n)`. -/
def __aeabi_memcpy8 (m : Mem) (dest src n : Nat) : Mem :=
  (memcpy m dest src n).1

/-! ### Characterisations of the intrinsics -/

theorem memsetRun_eq (v : Nat) : ∀ (n : Nat) (m : Mem) (p : Nat),
    memsetRun m p v n = fun a => if p ≤ a ∧ a < p + n then v else m a := by
  intro n
  induction n with
  | zero =>
    intro m p
    funext a
    show m a = if p ≤ a ∧ a < p + 0 then v else m a
    rw [if_neg (by omega)]
  | succ n ih =>
    intro m p
    funext a
    show memsetRun (store m p v) (p + 1) v n a = if p ≤ a ∧ a < p + (n + 1) then v else m a
    rw [ih]
    simp only [store]
    split_ifs <;> first | rfl | omega

theorem memcpyRun_eq : ∀ (n : Nat) (m : Mem) (d s : Nat), d < s →
    memcpyRun m d s n = fun a => if d ≤ a ∧ a < d + n then m (s + (a - d)) else m a := by
  intro n
  induction n with
  | zero =>
    intro m d s _
    funext a
    show m a = if d ≤ a ∧ a < d + 0 then m (s + (a - d)) else m a
    rw [if_neg (by omega)]
  | succ n ih =>
    intro m d s hds
    funext a
    show memcpyRun (store m d (m s)) (d + 1) (s + 1) n a =
      if d ≤ a ∧ a < d + (n + 1) then m (s + (a - d)) else m a
    rw [ih _ _ _ (by omega)]
    simp only [store]
    split_ifs <;> first | rfl | omega | (exfalso; omega) | (congr 1; omega)

theorem memmoveBackRun_eq : ∀ (n : Nat) (m : Mem) (d s : Nat), s < d →
    memmoveBackRun m d s n =
      fun a => if d ≤ a ∧ a < d + n then m (s + (a - d)) else m a := by
  intro n
  induction n with
  | zero =>
    intro m d s _
    funext a
    show m a = if d ≤ a ∧ a < d + 0 then m (s + (a - d)) else m a
    rw [if_neg (by omega)]
  | succ n ih =>
    intro m d s hsd
    funext a
    show memmoveBackRun (store m (d + n) (m (s + n))) d s n a =
      if d ≤ a ∧ a < d + (n + 1) then m (s + (a - d)) else m a
    rw [ih _ _ _ hsd]
    simp only [store]
    split_ifs <;> first | rfl | omega | (exfalso; omega) | (congr 1; omega)

/-! ### Claim theorems for the memory intrinsics -/

/-- Claim C7: `memset` writes exactly `n` copies of the low 8 bits of the
value argument starting at `dest` (independently of what memory held
before), leaves every other address untouched, returns `dest`, and for
`n = 0` leaves memory exactly as it was. -/
theorem memset_spec (m : Mem) (dest c n : Nat) :
    (memset m dest c n).2 = dest
    ∧ (memset m dest c n).1 =
        (fun a => if dest ≤ a ∧ a < dest + n then c % 256 else m a)
    ∧ (n = 0 → (memset m dest c n).1 = m) := by
  refine ⟨rfl, ?_, fun h => by rw [h]; rfl⟩
  show memsetRun m dest (c % 256) n = _
  rw [memsetRun_eq]

/-- Sample byte memory used by the concrete witnesses below. -/
def sampleMem : Mem := fun a => a % 256

/-- Witness for C7: a concrete zero-length `memset` is a no-op, and a
concrete 3-byte `memset` writes the low byte 0xAB of 0x1AB everywhere in
range. -/
theorem memset_spec_witness :
    (memset sampleMem 10 0x1AB 0).1 = sampleMem
    ∧ (memset sampleMem 10 0x1AB 3).1 =
        (fun a => if 10 ≤ a ∧ a < 10 + 3 then 0x1AB % 256 else sampleMem a) :=
  ⟨(memset_spec sampleMem 10 0x1AB 0).2.2 rfl, (memset_spec sampleMem 10 0x1AB 3).2.1⟩

/-- Claim C5: `memmove` returns the destination address, leaves the `n`
destination bytes equal to the bytes the source region held before the
call (for any overlap; the code copies forward when `dest < src` and
backward when `dest > src`), leaves everything outside the destination
range untouched, and is a no-op on memory when `dest = src` or `n = 0`. -/
theorem memmove_spec (m : Mem) (dest src n : Nat) :
    (memmove m dest src n).2 = dest
    ∧ (memmove m dest src n).1 =
        (fun a => if dest ≤ a ∧ a < dest + n then m (src + (a - dest)) else m a)
    ∧ (dest = src ∨ n = 0 → (memmove m dest src n).1 = m) := by
  by_cases h1 : dest = src ∨ n = 0
  · have hm : memmove m dest src n = (m, dest) := by
      unfold memmove
      rw [if_pos h1]
    rw [hm]
    refine ⟨rfl, ?_, fun _ => rfl⟩
    funext a
    show m a = if dest ≤ a ∧ a < dest + n then m (src + (a - dest)) else m a
    split_ifs with h
    · rcases h1 with h1 | h1
      · congr 1
        omega
      · exfalso
        omega
    · rfl
  · rcases Nat.lt_trichotomy dest src with hlt | heq | hgt
    · have hm : memmove m dest src n = (memcpyRun m dest src n, dest) := by
        unfold memmove
        rw [if_neg h1, if_pos hlt]
      rw [hm]
      exact ⟨rfl, memcpyRun_eq n m dest src hlt, fun h => absurd h h1⟩
    · exact absurd (Or.inl heq) h1
    · have hm : memmove m dest src n = (memmoveBackRun m dest src n, dest) := by
        unfold memmove
        rw [if_neg h1, if_neg (by omega)]
      rw [hm]
      exact ⟨rfl, memmoveBackRun_eq n m dest src hgt, fun h => absurd h h1⟩

/-- Witness for C5: a concrete overlapping backward move (dest 6, src 4,
5 bytes) satisfies the characterisation, and a concrete self-move is a
no-op. -/
theorem memmove_spec_witness :
    (memmove sampleMem 6 4 5).1 =
        (fun a => if 6 ≤ a ∧ a < 6 + 5 then sampleMem (4 + (a - 6)) else sampleMem a)
    ∧ (memmove sampleMem 9 9 5).1 = sampleMem :=
  ⟨(memmove_spec sampleMem 6 4 5).2.1, (memmove_spec sampleMem 9 9 5).2.2 (Or.inl rfl)⟩

/-- Claim C6: each ARM EABI alternate entry point produces exactly the
memory effect of the canonical operation it delegates to: the three
`__aeabi_memset` variants match `memset(dest, c, n)`, the three
`__aeabi_memclr` variants match `memset(dest, 0, n)`, and the three
`__aeabi_memcpy` variants match `memcpy(dest, src, n)`, for all
arguments. -/
theorem aeabi_aliases_spec (m : Mem) (dest src n c : Nat) :
    __aeabi_memset m dest n c = (memset m dest c n).1
    ∧ __aeabi_memset4 m dest n c = (memset m dest c n).1
    ∧ __aeabi_memset8 m dest n c = (memset m dest c n).1
    ∧ __aeabi_memclr m dest n = (memset m dest 0 n).1
    ∧ __aeabi_memclr4 m dest n = (memset m dest 0 n).1
    ∧ __aeabi_memclr8 m dest n = (memset m dest 0 n).1
    ∧ __aeabi_memcpy m dest src n = (memcpy m dest src n).1
    ∧ __aeabi_memcpy4 m dest src n = (memcpy m dest src n).1
    ∧ __aeabi_memcpy8 m dest src n = (memcpy m dest src n).1 :=
  ⟨rfl, rfl, rfl, rfl, rfl, rfl, rfl, rfl, rfl⟩

/-! ### PRNG (arc4random_buf) -/

/-- Embedding of the PRNG seed: `static uint32_t g_rng = 0x12345678u`. -/
def g_rng_init : Nat := 0x12345678

/-- Embedding of `xorshift32` from src/src/support.c. Each left shift is
truncated to 32 bits exactly as the `uint32_t` arithmetic does; the xor of
two 32-bit values needs no further reduction. -/
def xorshift32 (x : Nat) : Nat :=
  let x1 := Nat.xor x ((x <<< 13) % W)
  let x2 := Nat.xor x1 (x1 >>> 17)
  Nat.xor x2 ((x2 <<< 5) % W)

/-- Embedding of the inner loop of `arc4random_buf`
(`*p++ = (uint8_t)(r & 0xFF); r >>= 8;`), emitting `k` bytes of the word
`r`, least-significant first. -/
def wordBytes (r : Nat) : Nat → List Nat
  | 0 => []
  | k + 1 => Nat.land r 0xFF :: wordBytes (r >>> 8) k

/-- Embedding of `arc4random_buf` from src/src/support.c, returning the
emitted bytes and the final PRNG state. The outer `while (n)` loop draws
one word per iteration and the inner loop emits `min 4 n` of its bytes;
the four match arms unroll that minimum so the recursion is structural
in `n`. -/
def arc4random_buf : Nat → Nat → List Nat × Nat
  | s, 0 => ([], s)
  | s, 1 => (wordBytes (xorshift32 s) 1, xorshift32 s)
  | s, 2 => (wordBytes (xorshift32 s) 2, xorshift32 s)
  | s, 3 => (wordBytes (xorshift32 s) 3, xorshift32 s)
  | s, n + 4 =>
    (wordBytes (xorshift32 s) 4 ++ (arc4random_buf (xorshift32 s) n).1,
      (arc4random_buf (xorshift32 s) n).2)

/-- Specification-side word stream: the successive PRNG states obtained by
applying the xorshift transform once per word. -/
def rngWords (s : Nat) : Nat → List Nat
  | 0 => []
  | k + 1 => xorshift32 s :: rngWords (xorshift32 s) k

/-- Specification-side view of one 32-bit word as four bytes,
least-significant first. -/
def bytesLSB (w : Nat) : List Nat :=
  [w % 256, w / 2 ^ 8 % 256, w / 2 ^ 16 % 256, w / 2 ^ 24 % 256]

/-- Specification-side description of `fill_random`, following the spec's
words: advance the state once per 32-bit word, emit each word's bytes
least-significant-first, and truncate the final partial word to the
remaining byte count. -/
def fillRandomSpec (s n : Nat) : List Nat :=
  (List.flatMap (rngWords s ((n + 3) / 4)) bytesLSB).take n

theorem land_255 (x : Nat) : Nat.land x 255 = x % 256 :=
  Nat.and_pow_two_sub_one_eq_mod x 8

theorem wordBytes_eq_take (r : Nat) : ∀ k, k ≤ 4 → wordBytes r k = (bytesLSB r).take k := by
  intro k hk
  interval_cases k <;>
    simp [wordBytes, bytesLSB, land_255, Nat.shiftRight_eq_div_pow,
      Nat.div_div_eq_div_mul]

theorem rngWords_flatMap_length :
    ∀ (k s : Nat), (List.flatMap (rngWords s k) bytesLSB).length = 4 * k := by
  intro k
  induction k with
  | zero =>
    intro s
    rfl
  | succ k ih =>
    intro s
    simp only [rngWords, List.flatMap_cons, List.length_append, ih, bytesLSB,
      List.length_cons, List.length_nil]
    omega

theorem arc4random_buf_bytes :
    ∀ (n s : Nat), (arc4random_buf s n).1 = fillRandomSpec s n := by
  intro n
  induction n using Nat.strong_induction_on with
  | _ n ih =>
    intro s
    rcases n with _ | _ | _ | _ | m
    · rfl
    · show wordBytes (xorshift32 s) 1 = fillRandomSpec s 1
      rw [wordBytes_eq_take _ 1 (by omega)]
      simp [fillRandomSpec, rngWords]
    · show wordBytes (xorshift32 s) 2 = fillRandomSpec s 2
      rw [wordBytes_eq_take _ 2 (by omega)]
      simp [fillRandomSpec, rngWords]
    · show wordBytes (xorshift32 s) 3 = fillRandomSpec s 3
      rw [wordBytes_eq_take _ 3 (by omega)]
      simp [fillRandomSpec, rngWords]
    · show wordBytes (xorshift32 s) 4 ++ (arc4random_buf (xorshift32 s) m).1 =
        fillRandomSpec s (m + 4)
      rw [ih m (by omega) (xorshift32 s)]
      rw [wordBytes_eq_take _ 4 (by omega)]
      unfold fillRandomSpec
      have hcnt : (m + 4 + 3) / 4 = (m + 3) / 4 + 1 := by omega
      rw [hcnt]
      simp only [rngWords, List.flatMap_cons]
      rw [List.take_append_eq_append_take]
      simp [bytesLSB, List.take_succ_cons]

theorem arc4random_buf_state :
    ∀ (n s : Nat), (arc4random_buf s n).2 = xorshift32^[(n + 3) / 4] s := by
  intro n
  induction n using Nat.strong_induction_on with
  | _ n ih =>
    intro s
    rcases n with _ | _ | _ | _ | m
    · rfl
    · rfl
    · rfl
    · rfl
    · show (arc4random_buf (xorshift32 s) m).2 = xorshift32^[(m + 4 + 3) / 4] s
      rw [ih m (by omega)]
      have hcnt : (m + 4 + 3) / 4 = (m + 3) / 4 + 1 := by omega
      rw [hcnt, Function.iterate_succ_apply]

theorem fillRandomSpec_length (s n : Nat) : (fillRandomSpec s n).length = n := by
  unfold fillRandomSpec
  rw [List.length_take, rngWords_flatMap_length]
  omega

/-- Claim C8: starting from the reset seed 0x12345678, `arc4random_buf`
emits exactly the byte stream described by the spec — one xorshift
application per 32-bit word, bytes least-significant-first, final partial
word truncated — so the output of a call is a function of the requested
length alone, and two invocations from reset state with equal lengths are
byte-identical. -/
theorem arc4random_buf_deterministic (n : Nat) :
    (arc4random_buf g_rng_init n).1 = fillRandomSpec g_rng_init n
    ∧ (arc4random_buf g_rng_init n).1.length = n := by
  refine ⟨arc4random_buf_bytes n g_rng_init, ?_⟩
  rw [arc4random_buf_bytes n g_rng_init]
  exact fillRandomSpec_length g_rng_init n

/-- Counterexample to claim C9: a request of length 0 leaves the PRNG state
exactly as it was (the `while (n)` loop body never runs), although one
application of the xorshift transform would have changed it. -/
theorem arc4random_buf_zero_no_advance :
    (arc4random_buf g_rng_init 0).2 = g_rng_init
    ∧ xorshift32 g_rng_init ≠ g_rng_init := by
  constructor
  · rfl
  · decide

/-- Amended claim C9: on every byte-fill request of length `n ≥ 1` the PRNG
state is advanced by `⌈n/4⌉ ≥ 1` applications of the xorshift transform; a
request of length 0 leaves the state unchanged. -/
theorem arc4random_buf_state_advances (s n : Nat) (hn : 1 ≤ n) :
    (arc4random_buf s n).2 = xorshift32^[(n + 3) / 4] s
    ∧ 1 ≤ (n + 3) / 4 :=
  ⟨arc4random_buf_state n s, by omega⟩

/-- Witness for the amended C9: a 5-byte request from the reset seed
advances the state by exactly two xorshift applications. -/
theorem arc4random_buf_state_advances_witness :
    (arc4random_buf g_rng_init 5).2 = xorshift32^[(5 + 3) / 4] g_rng_init
    ∧ 1 ≤ (5 + 3) / 4 :=
  arc4random_buf_state_advances g_rng_init 5 (by omega)

end Support
